import Mathlib

/-!
Verification development for the repository's two scripts:
`scripts/version.py` (version synchronizer) and `formats.py` (format reporter).
Python functions are shallowly embedded as executable Lean definitions over
`List Char` / `String`, JSON documents are modelled as association lists, and
the filesystem state seen by the synchronizer is a record of three optional
file contents.
-/

namespace YT

/-! ## Python primitives -/

/-- Whitespace as recognised by Python's `str.strip` / `int()` parsing,
restricted to the ASCII range (the scripts never feed non-ASCII whitespace). -/
def pyWs (c : Char) : Bool :=
  c = (' ') || c = ('\t') || c = ('\n') || c = ('\r') ||
  c = (Char.ofNat 11) || c = (Char.ofNat 12)

/-- Split on the dot character, modelling Python's `str.split(".")`:
always returns at least one (possibly empty) component. -/
def pySplitDot : List Char → List (List Char)
  | [] => [[]]
  | c :: cs =>
    match pySplitDot cs with
    | [] => [[c]]
    | p :: ps => if c = ('.') then [] :: p :: ps else (c :: p) :: ps

/-- Join components with dots; inverse of `pySplitDot`. -/
def joinDots : List (List Char) → List Char
  | [] => []
  | [x] => x
  | x :: y :: ys => x ++ ('.') :: joinDots (y :: ys)

/-- Numeric value of an ASCII digit character. -/
def digitVal (c : Char) : Nat := c.toNat - 48

/-- Continue parsing a run of decimal digits in which a single underscore may
separate two digits, as accepted by Python's `int()` grouping syntax. -/
def parseDigitsRun : Nat → List Char → Option Nat
  | acc, [] => some acc
  | acc, c :: cs =>
    if c = ('_') then
      match cs with
      | d :: rest => if d.isDigit then parseDigitsRun (10 * acc + digitVal d) rest else none
      | [] => none
    else if c.isDigit then parseDigitsRun (10 * acc + digitVal c) cs else none

/-- Parse a nonempty digit run (first character must be a digit). -/
def parseDigitsStart : List Char → Option Nat
  | [] => none
  | c :: cs => if c.isDigit then parseDigitsRun (digitVal c) cs else none

/-- Model of Python's `int(s)` restricted to ASCII: strip surrounding
whitespace, allow one optional sign, then a nonempty digit run with optional
single underscores between digits. -/
def pyIntOfChars (l : List Char) : Option Int :=
  match ((l.dropWhile pyWs).reverse.dropWhile pyWs).reverse with
  | [] => none
  | c :: cs =>
    if c = ('+') then (parseDigitsStart cs).map Int.ofNat
    else if c = ('-') then (parseDigitsStart cs).map (fun n => -(n : Int))
    else (parseDigitsStart (c :: cs)).map Int.ofNat

/-- Fuel-based digit accumulator for rendering a natural in base ten. -/
def natToCharsGo : Nat → Nat → List Char → List Char
  | 0, _, acc => acc
  | fuel + 1, n, acc =>
    if n = 0 then acc else natToCharsGo fuel (n / 10) (Nat.digitChar (n % 10) :: acc)

/-- Decimal rendering of a natural number, as Python's `str(int)` for
non-negative values. -/
def natToChars (n : Nat) : List Char :=
  if n = 0 then [('0')] else natToCharsGo n n []

/-- Decimal rendering of an integer, as Python's `str(int)`. -/
def intToChars (i : Int) : List Char :=
  if i < 0 then ('-') :: natToChars i.natAbs else natToChars i.toNat

/-! ## version.py : `bump_version` (lines 131-151) -/

/-- Render the formatted version string of `bump_version`'s return
statement, which interpolates the three integers separated by dots. -/
def verChars (a b c : Int) : List Char :=
  intToChars a ++ ('.') :: intToChars b ++ ('.') :: intToChars c

/-- Model of `bump_version(version, bump_type)`: split on dots, require
exactly three components, parse each with `int()`, then dispatch on the bump
kind; any failure (wrong component count, unparsable component, unknown kind)
raises `ValueError`, modelled by `none`. -/
def bump_version (version : String) (bump_type : String) : Option String :=
  match pySplitDot version.data with
  | [p1, p2, p3] =>
    match pyIntOfChars p1, pyIntOfChars p2, pyIntOfChars p3 with
    | some a, some b, some c =>
      if bump_type = ("major") then some (String.mk (verChars (a + 1) 0 0))
      else if bump_type = ("minor") then some (String.mk (verChars a (b + 1) 0))
      else if bump_type = ("patch") then some (String.mk (verChars a b (c + 1)))
      else none
    | _, _, _ => none
  | _ => none

/-- Canonical form of a three-component version string built from naturals. -/
def verStrNat (x y z : Nat) : String :=
  String.mk (natToChars x ++ ('.') :: natToChars y ++ ('.') :: natToChars z)

/-- Predicate used to state `bump_version`'s failure condition: the string
splits on dots into exactly three components each accepted by `int()`. -/
def hasThreeIntComponents (s : String) : Bool :=
  match pySplitDot s.data with
  | [a, b, c] => (pyIntOfChars a).isSome && (pyIntOfChars b).isSome && (pyIntOfChars c).isSome
  | _ => false

/-! ## Basic lemmas about the primitives -/

lemma pySplitDot_cons (c : Char) (l : List Char) :
    pySplitDot (c :: l) =
      match pySplitDot l with
      | [] => [[c]]
      | p :: ps => if c = ('.') then [] :: p :: ps else (c :: p) :: ps := rfl

lemma parseDigitsRun_not_us (acc : Nat) (c : Char) (cs : List Char) (h : c ≠ ('_')) :
    parseDigitsRun acc (c :: cs) =
      if c.isDigit then parseDigitsRun (10 * acc + digitVal c) cs else none := by
  rw [parseDigitsRun.eq_def]
  simp only [if_neg h]

lemma parseDigitsStart_cons (c : Char) (cs : List Char) :
    parseDigitsStart (c :: cs) =
      if c.isDigit then parseDigitsRun (digitVal c) cs else none := rfl

lemma pySplitDot_ne_nil (l : List Char) : pySplitDot l ≠ [] := by
  cases l with
  | nil => simp [pySplitDot]
  | cons c cs =>
    simp only [pySplitDot]
    cases pySplitDot cs with
    | nil => simp
    | cons p ps =>
      by_cases h : c = ('.') <;> simp [h]

lemma pySplitDot_append_dot (a r : List Char) (ha : ('.') ∉ a) :
    pySplitDot (a ++ ('.') :: r) = a :: pySplitDot r := by
  induction a with
  | nil =>
    simp only [List.nil_append, pySplitDot]
    rcases hr : pySplitDot r with _ | ⟨p, ps⟩
    · exact absurd hr (pySplitDot_ne_nil r)
    · simp
  | cons c a ih =>
    have hc : c ≠ ('.') := fun h => ha (h ▸ List.mem_cons_self c a)
    have ha' : ('.') ∉ a := fun h => ha (List.mem_cons_of_mem c h)
    rw [List.cons_append, pySplitDot_cons, ih ha']
    simp [hc]

lemma pySplitDot_no_dot (a : List Char) (ha : ('.') ∉ a) : pySplitDot a = [a] := by
  induction a with
  | nil => rfl
  | cons c a ih =>
    have hc : c ≠ ('.') := fun h => ha (h ▸ List.mem_cons_self c a)
    have ha' : ('.') ∉ a := fun h => ha (List.mem_cons_of_mem c h)
    rw [pySplitDot_cons, ih ha']
    simp [hc]

lemma joinDots_pySplitDot (l : List Char) : joinDots (pySplitDot l) = l := by
  induction l with
  | nil => rfl
  | cons c cs ih =>
    simp only [pySplitDot]
    rcases hr : pySplitDot cs with _ | ⟨p, ps⟩
    · exact absurd hr (pySplitDot_ne_nil cs)
    · rw [hr] at ih
      by_cases hc : c = ('.')
      · subst hc
        simp only [if_pos rfl, joinDots, List.nil_append]
        rw [ih]
      · simp only [if_neg hc]
        cases ps with
        | nil => simp only [joinDots] at ih ⊢; rw [ih]
        | cons q qs =>
          simp only [joinDots] at ih ⊢
          rw [List.cons_append, ih]

lemma isDigit_ne (c d : Char) (h : c.isDigit = true) (hd : d.isDigit = false) : c ≠ d := by
  intro e
  subst e
  rw [h] at hd
  exact Bool.noConfusion hd

lemma isDigit_pyWs_false (c : Char) (h : c.isDigit = true) : pyWs c = false := by
  simp only [pyWs, Bool.or_eq_false_iff, decide_eq_false_iff_not]
  and_intros <;> exact isDigit_ne c _ h (by decide)

lemma dropWhile_of_all_false {p : Char → Bool} {l : List Char}
    (h : ∀ c ∈ l, p c = false) : l.dropWhile p = l := by
  cases l with
  | nil => rfl
  | cons c cs => simp [List.dropWhile_cons, h c (List.mem_cons_self c cs)]

lemma digitVal_digitChar (d : Nat) (h : d < 10) : digitVal (Nat.digitChar d) = d := by
  interval_cases d <;> rfl

lemma digitChar_isDigit (d : Nat) (h : d < 10) : (Nat.digitChar d).isDigit = true := by
  interval_cases d <;> rfl

lemma natToCharsGo_eq (fuel : Nat) : ∀ n acc, n ≤ fuel →
    natToCharsGo fuel n acc = ((Nat.digits 10 n).reverse.map Nat.digitChar) ++ acc := by
  induction fuel with
  | zero =>
    intro n acc hn
    interval_cases n
    simp [natToCharsGo]
  | succ fuel ih =>
    intro n acc hn
    by_cases h0 : n = 0
    · subst h0; simp [natToCharsGo]
    · have hpos : 0 < n := Nat.pos_of_ne_zero h0
      have hdiv : n / 10 ≤ fuel := by
        have : n / 10 < n := Nat.div_lt_self hpos (by norm_num)
        omega
      rw [natToCharsGo, if_neg h0, ih _ _ hdiv, Nat.digits_def' (by norm_num : 1 < 10) hpos]
      simp [List.map_append]

lemma natToChars_eq_digits (n : Nat) (h : n ≠ 0) :
    natToChars n = (Nat.digits 10 n).reverse.map Nat.digitChar := by
  rw [natToChars, if_neg h, natToCharsGo_eq n n [] (le_refl n), List.append_nil]

lemma mem_natToChars_isDigit (n : Nat) : ∀ c ∈ natToChars n, c.isDigit = true := by
  intro c hc
  by_cases h0 : n = 0
  · subst h0
    simp [natToChars] at hc
    subst hc; rfl
  · rw [natToChars_eq_digits n h0] at hc
    obtain ⟨d, hd, rfl⟩ := List.mem_map.mp hc
    exact digitChar_isDigit d (Nat.digits_lt_base (by norm_num) (List.mem_reverse.mp hd))

lemma natToChars_ne_nil (n : Nat) : natToChars n ≠ [] := by
  by_cases h0 : n = 0
  · subst h0; simp [natToChars]
  · rw [natToChars_eq_digits n h0]
    simp [Nat.digits_ne_nil_iff_ne_zero, h0]

lemma foldl_digitVal_digitChar (ds : List Nat) : ∀ acc : Nat, (∀ d ∈ ds, d < 10) →
    (ds.map Nat.digitChar).foldl (fun a c => 10 * a + digitVal c) acc =
      Nat.ofDigits 10 ds.reverse + acc * 10 ^ ds.length := by
  induction ds with
  | nil => intro acc _; simp [Nat.ofDigits]
  | cons d ds ih =>
    intro acc hlt
    have hd : d < 10 := hlt d (List.mem_cons_self d ds)
    have hds : ∀ x ∈ ds, x < 10 := fun x hx => hlt x (List.mem_cons_of_mem d hx)
    simp only [List.map_cons, List.foldl_cons, digitVal_digitChar d hd, ih _ hds]
    rw [List.reverse_cons, Nat.ofDigits_append]
    simp only [Nat.ofDigits_singleton, List.length_reverse, List.length_cons]
    ring

lemma natToChars_foldl (n : Nat) :
    (natToChars n).foldl (fun a c => 10 * a + digitVal c) 0 = n := by
  by_cases h0 : n = 0
  · subst h0; rfl
  · rw [natToChars_eq_digits n h0]
    have h := foldl_digitVal_digitChar (Nat.digits 10 n).reverse 0
      (fun d hd => Nat.digits_lt_base (by norm_num) (List.mem_reverse.mp hd))
    rw [h, List.reverse_reverse, Nat.ofDigits_digits]
    ring

lemma parseDigitsRun_digits : ∀ (cs : List Char) (acc : Nat),
    (∀ c ∈ cs, c.isDigit = true) →
    parseDigitsRun acc cs = some (cs.foldl (fun a c => 10 * a + digitVal c) acc) := by
  intro cs
  induction cs with
  | nil => intro acc _; rfl
  | cons c cs ih =>
    intro acc h
    have hc : c.isDigit = true := h c (List.mem_cons_self c cs)
    have hcs : ∀ x ∈ cs, x.isDigit = true := fun x hx => h x (List.mem_cons_of_mem c hx)
    have hne : c ≠ ('_') := isDigit_ne c _ hc (by decide)
    rw [parseDigitsRun_not_us _ _ _ hne, if_pos hc, ih _ hcs]
    rfl

lemma pyIntOfChars_natToChars (n : Nat) : pyIntOfChars (natToChars n) = some (n : Int) := by
  have hdig := mem_natToChars_isDigit n
  have hws : ∀ c ∈ natToChars n, pyWs c = false := fun c hc => isDigit_pyWs_false c (hdig c hc)
  have hd1 : (natToChars n).dropWhile pyWs = natToChars n := dropWhile_of_all_false hws
  have hd2 : (natToChars n).reverse.dropWhile pyWs = (natToChars n).reverse :=
    dropWhile_of_all_false (fun c hc => hws c (List.mem_reverse.mp hc))
  obtain ⟨c, cs, hl⟩ := List.exists_cons_of_ne_nil (natToChars_ne_nil n)
  have hc : c.isDigit = true := hdig c (hl ▸ List.mem_cons_self c cs)
  have hcs : ∀ x ∈ cs, x.isDigit = true := fun x hx => hdig x (hl ▸ List.mem_cons_of_mem c hx)
  rw [pyIntOfChars, hd1, hd2, List.reverse_reverse, hl]
  show (if c = ('+') then (parseDigitsStart cs).map Int.ofNat
      else if c = ('-') then (parseDigitsStart cs).map (fun m => -(m : Int))
      else (parseDigitsStart (c :: cs)).map Int.ofNat) = some (n : Int)
  rw [if_neg (isDigit_ne c ('+') hc (by decide)), if_neg (isDigit_ne c ('-') hc (by decide))]
  rw [parseDigitsStart_cons, if_pos hc, parseDigitsRun_digits cs (digitVal c) hcs]
  have hfold : (natToChars n).foldl (fun a c => 10 * a + digitVal c) 0 = n := natToChars_foldl n
  rw [hl] at hfold
  simp only [List.foldl_cons] at hfold
  rw [Nat.mul_zero, Nat.zero_add] at hfold
  rw [hfold]
  rfl

lemma dot_not_mem_natToChars (n : Nat) : ('.') ∉ natToChars n := by
  intro h
  exact absurd (mem_natToChars_isDigit n _ h) (by decide)

lemma intToChars_ofNat (n : Nat) : intToChars (n : Int) = natToChars n := by
  rw [intToChars, if_neg (by omega), Int.toNat_ofNat]

/-! ## C1 : bump_version behaviour -/

/-- C1. For every version string `"X.Y.Z"` with exactly three dot-separated
non-negative integer components, `bump_version` with kind `"patch"` returns
`"X.Y.(Z+1)"`, kind `"minor"` returns `"X.(Y+1).0"`, and kind `"major"`
returns `"(X+1).0.0"`; for any string not having exactly three dot-separated
integer components it fails (raises `ValueError`, modelled as `none`). -/
theorem c1_bump_version (x y z : Nat) :
    bump_version (verStrNat x y z) ("patch") = some (verStrNat x y (z + 1)) ∧
    bump_version (verStrNat x y z) ("minor") = some (verStrNat x (y + 1) 0) ∧
    bump_version (verStrNat x y z) ("major") = some (verStrNat (x + 1) 0 0) ∧
    ∀ s : String, hasThreeIntComponents s = false → ∀ k : String, bump_version s k = none := by
  have hdata : (verStrNat x y z).data =
      natToChars x ++ ('.') :: (natToChars y ++ ('.') :: natToChars z) := by
    have h0 : (verStrNat x y z).data =
        natToChars x ++ ('.') :: natToChars y ++ ('.') :: natToChars z := rfl
    rw [h0, List.append_assoc, List.cons_append]
  have hsplit : pySplitDot (verStrNat x y z).data =
      [natToChars x, natToChars y, natToChars z] := by
    rw [hdata, pySplitDot_append_dot _ _ (dot_not_mem_natToChars x),
      pySplitDot_append_dot _ _ (dot_not_mem_natToChars y),
      pySplitDot_no_dot _ (dot_not_mem_natToChars z)]
  have hcast : ∀ m : Nat, ((m : Int) + 1) = ((m + 1 : Nat) : Int) := by intro m; push_cast; ring
  refine ⟨?_, ?_, ?_, ?_⟩
  · rw [bump_version, hsplit]
    simp only [pyIntOfChars_natToChars]
    rw [if_neg (show (("patch") : String) ≠ ("major") by decide),
      if_neg (show (("patch") : String) ≠ ("minor") by decide),
      if_pos trivial, verChars, hcast z]
    simp only [intToChars_ofNat]
    rfl
  · rw [bump_version, hsplit]
    simp only [pyIntOfChars_natToChars]
    rw [if_neg (show (("minor") : String) ≠ ("major") by decide),
      if_pos trivial, verChars, hcast y]
    simp only [intToChars_ofNat]
    rfl
  · rw [bump_version, hsplit]
    simp only [pyIntOfChars_natToChars]
    rw [if_pos trivial, verChars, hcast x]
    simp only [intToChars_ofNat]
    rfl
  · intro s h k
    rw [hasThreeIntComponents] at h
    rw [bump_version]
    rcases hsp : pySplitDot s.data with _ | ⟨a, _ | ⟨b, _ | ⟨c, _ | ⟨d, t⟩⟩⟩⟩ <;>
      rw [hsp] at h <;> try rfl
    rcases ha : pyIntOfChars a with _ | va
    · simp [ha]
    · rcases hb : pyIntOfChars b with _ | vb
      · simp [ha, hb]
      · rcases hc2 : pyIntOfChars c with _ | vc
        · simp [ha, hb, hc2]
        · exfalso
          simp [ha, hb, hc2] at h

/-- Witness for C1 at concrete inputs. -/
theorem c1_bump_version_witness :
    bump_version (verStrNat 0 1 0) ("patch") = some (verStrNat 0 1 1) ∧
    hasThreeIntComponents ("1.2") = false ∧ bump_version ("1.2") ("patch") = none :=
  ⟨(c1_bump_version 0 1 0).1, by decide,
    (c1_bump_version 0 1 0).2.2.2 ("1.2") (by decide) ("patch")⟩

/-! ## version.py : Cargo.toml regex read/write (lines 40-59)

`read_cargo_version` searches the file text for the first multiline-anchored
occurrence of the pattern `^version\s*=\s*"([^"]+)"` and returns the captured
group; it raises `ValueError` (modelled by `none`) when there is no match.
`write_cargo_version` performs `re.sub` with `count=1` on the same pattern
shape, replacing only the quoted value; with no match it rewrites the file
content unchanged.  Both are modelled at character level: `matchAt` attempts
the pattern at one position, and the scanners try every line start, which is
exactly where the `re.MULTILINE` anchor `^` allows a match. -/

/-- Character is not a double quote, the `[^"]` character class. -/
def notQuote (c : Char) : Bool := c != ('"')

/-- Literal `version` prefix of the pattern. -/
def versionLit : List Char := ("version").data

/-- Consume an exact literal prefix, returning the remainder. -/
def dropLit : List Char → List Char → Option (List Char)
  | [], rest => some rest
  | _ :: _, [] => none
  | l :: ls, c :: cs => if c = l then dropLit ls cs else none

/-- Attempt the pattern `version\s*=\s*"([^"]+)"` at the head of `cs`.
On success returns `(matched text up to and including the opening quote,
captured value, remainder after the closing quote)`; the greedy runs of the
regex cannot backtrack usefully, so maximal-run parsing is exact. -/
def matchAt (cs : List Char) : Option (List Char × List Char × List Char) :=
  match dropLit versionLit cs with
  | none => none
  | some r1 =>
    match r1.dropWhile pyWs with
    | [] => none
    | c2 :: r2 =>
      if c2 = ('=') then
        match r2.dropWhile pyWs with
        | [] => none
        | c3 :: r3 =>
          if c3 = ('"') then
            match r3.dropWhile notQuote with
            | [] => none
            | c4 :: rest =>
              if c4 = ('"') then
                if (r3.takeWhile notQuote).isEmpty then none
                else
                  some (versionLit ++ r1.takeWhile pyWs ++ ('=') :: r2.takeWhile pyWs ++ [('"')],
                    r3.takeWhile notQuote, rest)
              else none
          else none
      else none

/-- Scan for the first match at a line start (`re.search` with `MULTILINE`):
the flag records whether the current position is a line start. -/
def cargoSearch : Bool → List Char → Option (List Char)
  | _, [] => none
  | true, c :: cs =>
    match matchAt (c :: cs) with
    | some (_, v, _) => some v
    | none => cargoSearch (c = ('\n')) cs
  | false, c :: cs => cargoSearch (c = ('\n')) cs

/-- Substitute the first line-start match (`re.sub` with `count=1`),
replacing only the captured group and keeping the surrounding text. -/
def cargoSub (nv : List Char) : Bool → List Char → List Char
  | _, [] => []
  | true, c :: cs =>
    match matchAt (c :: cs) with
    | some (pre, _, rest) => pre ++ nv ++ ('"') :: rest
    | none => c :: cargoSub nv (c = ('\n')) cs
  | false, c :: cs => c :: cargoSub nv (c = ('\n')) cs

/-- Model of `read_cargo_version` on the file's text content. -/
def read_cargo_version (content : String) : Option String :=
  (cargoSearch true content.data).map String.mk

/-- Model of `write_cargo_version` on the file's text content; returns the
new content written back to the file. -/
def write_cargo_version (content : String) (version : String) : String :=
  String.mk (cargoSub version.data true content.data)

/-! ### Lemmas about the regex model -/

lemma dropLit_eq_some : ∀ (lit cs r : List Char), dropLit lit cs = some r → cs = lit ++ r := by
  intro lit
  induction lit with
  | nil =>
    intro cs r h
    simp only [dropLit, Option.some.injEq] at h
    simp [h]
  | cons l ls ih =>
    intro cs r h
    cases cs with
    | nil => simp [dropLit] at h
    | cons c cs' =>
      rw [dropLit] at h
      by_cases hc : c = l
      · subst hc
        rw [if_pos rfl] at h
        rw [List.cons_append, ih cs' r h]
      · rw [if_neg hc] at h
        exact absurd h (by simp)

lemma dropLit_self_append : ∀ (lit r : List Char), dropLit lit (lit ++ r) = some r := by
  intro lit
  induction lit with
  | nil => intro r; rfl
  | cons l ls ih => intro r; rw [List.cons_append, dropLit, if_pos rfl]; exact ih r

lemma dropLit_append_map {a : Char} : ∀ {lit : List Char}, a ∉ lit →
    ∀ (t x : List Char),
    dropLit lit (t ++ a :: x) = (dropLit lit t).map (fun r => r ++ a :: x) := by
  intro lit
  induction lit with
  | nil => intro _ t x; rfl
  | cons l ls ih =>
    intro ha t x
    have hal : a ≠ l := fun h => ha (h ▸ List.mem_cons_self l ls)
    have has : a ∉ ls := fun h => ha (List.mem_cons_of_mem l h)
    cases t with
    | nil =>
      simp only [List.nil_append, dropLit, if_neg hal]
      rfl
    | cons t0 ts =>
      rw [List.cons_append, dropLit, dropLit]
      by_cases ht : t0 = l
      · rw [if_pos ht, if_pos ht]
        exact ih has ts x
      · rw [if_neg ht, if_neg ht]
        rfl

lemma takeWhile_append_boundary {p : Char → Bool} {a : Char} (hpa : p a = false) :
    ∀ (l x : List Char), (l ++ a :: x).takeWhile p = l.takeWhile p := by
  intro l
  induction l with
  | nil => intro x; simp [List.takeWhile_cons, hpa]
  | cons c l ih =>
    intro x
    by_cases hc : p c <;> simp [List.takeWhile_cons, hc, ih]

lemma dropWhile_append_boundary {p : Char → Bool} {a : Char} (hpa : p a = false) :
    ∀ (l x : List Char), (l ++ a :: x).dropWhile p = l.dropWhile p ++ a :: x := by
  intro l
  induction l with
  | nil => intro x; simp [List.dropWhile_cons, hpa]
  | cons c l ih =>
    intro x
    by_cases hc : p c <;> simp [List.dropWhile_cons, hc, ih]

lemma takeWhile_all {p : Char → Bool} : ∀ {l : List Char}, (∀ x ∈ l, p x = true) →
    l.takeWhile p = l := by
  intro l
  induction l with
  | nil => intro _; rfl
  | cons c l ih =>
    intro h
    simp [List.takeWhile_cons, h c (List.mem_cons_self c l),
      ih (fun x hx => h x (List.mem_cons_of_mem c hx))]

lemma dropWhile_all {p : Char → Bool} : ∀ {l : List Char}, (∀ x ∈ l, p x = true) →
    l.dropWhile p = [] := by
  intro l
  induction l with
  | nil => intro _; rfl
  | cons c l ih =>
    intro h
    simp [List.dropWhile_cons, h c (List.mem_cons_self c l),
      ih (fun x hx => h x (List.mem_cons_of_mem c hx))]

lemma span_exact (p : Char → Bool) {l : List Char} (hl : ∀ x ∈ l, p x = true) {a : Char}
    (hpa : p a = false) (x : List Char) :
    (l ++ a :: x).takeWhile p = l ∧ (l ++ a :: x).dropWhile p = a :: x := by
  constructor
  · rw [takeWhile_append_boundary hpa, takeWhile_all hl]
  · rw [dropWhile_append_boundary hpa, dropWhile_all hl, List.nil_append]

lemma dropWhile_head_false {p : Char → Bool} :
    ∀ {l : List Char} {a : Char} {t : List Char}, l.dropWhile p = a :: t →
    p a = false := by
  intro l
  induction l with
  | nil => intro a t h; simp at h
  | cons c l ih =>
    intro a t h
    by_cases hc : p c
    · rw [List.dropWhile_cons, if_pos hc] at h
      exact ih h
    · rw [List.dropWhile_cons, if_neg hc] at h
      obtain ⟨rfl, -⟩ := List.cons.inj h
      simpa using hc

/-- Shape of the text matched by the pattern up to the opening quote. -/
def IsPre (pre : List Char) : Prop :=
  ∃ w1 w2, (∀ x ∈ w1, pyWs x = true) ∧ (∀ x ∈ w2, pyWs x = true) ∧
    pre = versionLit ++ w1 ++ ('=') :: w2 ++ [('"')]

lemma matchAt_some {cs pre val rest : List Char}
    (h : matchAt cs = some (pre, val, rest)) :
    IsPre pre ∧ cs = pre ++ val ++ ('"') :: rest ∧ val ≠ [] ∧
      ∀ x ∈ val, notQuote x = true := by
  rw [matchAt] at h
  split at h
  · exact absurd h (by simp)
  next r1 hd =>
  split at h
  · exact absurd h (by simp)
  next c2 r2 h1 =>
  split at h
  swap
  · exact absurd h (by simp)
  next hc2 =>
  subst hc2
  split at h
  · exact absurd h (by simp)
  next c3 r3 h2 =>
  split at h
  swap
  · exact absurd h (by simp)
  next hc3 =>
  subst hc3
  split at h
  · exact absurd h (by simp)
  next c4 rest' h3 =>
  split at h
  swap
  · exact absurd h (by simp)
  next hc4 =>
  subst hc4
  split at h
  · exact absurd h (by simp)
  next he =>
  simp only [Option.some.injEq, Prod.mk.injEq] at h
  obtain ⟨hpre, hval, hrest⟩ := h
  subst hpre; subst hval; subst hrest
  refine ⟨⟨r1.takeWhile pyWs, r2.takeWhile pyWs,
    fun x hx => List.mem_takeWhile_imp hx, fun x hx => List.mem_takeWhile_imp hx, rfl⟩,
    ?_, ?_, fun x hx => List.mem_takeWhile_imp hx⟩
  · have e0 : cs = versionLit ++ r1 := dropLit_eq_some _ _ _ hd
    have e1 : r1 = r1.takeWhile pyWs ++ ('=') :: r2 := by
      conv_lhs => rw [← List.takeWhile_append_dropWhile pyWs r1]
      rw [h1]
    have e2 : r2 = r2.takeWhile pyWs ++ ('"') :: r3 := by
      conv_lhs => rw [← List.takeWhile_append_dropWhile pyWs r2]
      rw [h2]
    have e3 : r3 = r3.takeWhile notQuote ++ ('"') :: rest' := by
      conv_lhs => rw [← List.takeWhile_append_dropWhile notQuote r3]
      rw [h3]
    conv_lhs => rw [e0, e1, e2, e3]
    simp [List.append_assoc]
  · intro hnil
    rw [hnil] at he
    exact he rfl

lemma matchAt_build (w1 w2 val rest : List Char)
    (hw1 : ∀ x ∈ w1, pyWs x = true) (hw2 : ∀ x ∈ w2, pyWs x = true)
    (hval : val ≠ []) (hq : ∀ x ∈ val, notQuote x = true) :
    matchAt (versionLit ++ w1 ++ ('=') :: w2 ++ [('"')] ++ val ++ ('"') :: rest) =
      some (versionLit ++ w1 ++ ('=') :: w2 ++ [('"')], val, rest) := by
  have hie : val.isEmpty = false := by
    cases val with
    | nil => exact absurd rfl hval
    | cons a l => rfl
  have s1 := span_exact pyWs hw1 (show pyWs ('=') = false by decide)
    (w2 ++ ('"') :: (val ++ ('"') :: rest))
  have s2 := span_exact pyWs hw2 (show pyWs ('"') = false by decide) (val ++ ('"') :: rest)
  have s3 := span_exact notQuote hq (show notQuote ('"') = false by decide) rest
  have harg : versionLit ++ w1 ++ ('=') :: w2 ++ [('"')] ++ val ++ ('"') :: rest =
      versionLit ++ (w1 ++ ('=') :: (w2 ++ ('"') :: (val ++ ('"') :: rest))) := by
    simp [List.append_assoc]
  rw [harg]
  simp [matchAt, dropLit_self_append, s1.1, s1.2, s2.1, s2.2, s3.1, s3.2, hie]

/-- Outcome of `matchAt` at a position whose text is `T` followed by the
opening quote of a well-formed value region; it depends only on `T`. -/
def boundaryCheck (t : List Char) : Bool :=
  match dropLit versionLit t with
  | none => false
  | some r1 =>
    match r1.dropWhile pyWs with
    | [] => false
    | c2 :: r2 =>
      if c2 = ('=') then
        match r2.dropWhile pyWs with
        | [] => true
        | c3 :: r3 => if c3 = ('"') then !(r3.takeWhile notQuote).isEmpty else false
      else false

lemma matchAt_boundary (t v r : List Char) (hv : v ≠ []) (hq : ∀ x ∈ v, notQuote x = true) :
    (matchAt (t ++ ('"') :: (v ++ ('"') :: r))).isSome = boundaryCheck t := by
  have hvq : ('"') ∉ versionLit := by decide
  have hie : v.isEmpty = false := by
    cases v with
    | nil => exact absurd rfl hv
    | cons a l => rfl
  have hwq : pyWs ('"') = false := by decide
  have hnq : notQuote ('"') = false := by decide
  have hne : (('"') : Char) ≠ ('=') := by decide
  have sv := span_exact notQuote hq hnq r
  rcases hd : dropLit versionLit t with _ | r1
  · simp [matchAt, boundaryCheck, dropLit_append_map hvq, hd]
  rcases h1 : r1.dropWhile pyWs with _ | ⟨c2, r2⟩
  · simp [matchAt, boundaryCheck, dropLit_append_map hvq, hd,
      dropWhile_append_boundary hwq, h1, hne]
  by_cases hc2 : c2 = ('=')
  swap
  · simp [matchAt, boundaryCheck, dropLit_append_map hvq, hd,
      dropWhile_append_boundary hwq, h1, hc2]
  subst hc2
  rcases h2 : r2.dropWhile pyWs with _ | ⟨c3, r3⟩
  · simp [matchAt, boundaryCheck, dropLit_append_map hvq, hd,
      dropWhile_append_boundary hwq, h1, h2, sv.1, sv.2, hie]
  by_cases hc3 : c3 = ('"')
  swap
  · simp [matchAt, boundaryCheck, dropLit_append_map hvq, hd,
      dropWhile_append_boundary hwq, h1, h2, hc3]
  subst hc3
  rcases h3 : r3.dropWhile notQuote with _ | ⟨c4, t4⟩
  · rcases hE : r3.takeWhile notQuote with _ | ⟨e0, es⟩ <;>
      simp [matchAt, boundaryCheck, dropLit_append_map hvq, hd,
        dropWhile_append_boundary hwq, dropWhile_append_boundary hnq,
        takeWhile_append_boundary hnq, h1, h2, h3, hE]
  · have hc4 : c4 = ('"') := by
      have hh := dropWhile_head_false h3
      simpa [notQuote] using hh
    subst hc4
    rcases hE : r3.takeWhile notQuote with _ | ⟨e0, es⟩ <;>
      simp [matchAt, boundaryCheck, dropLit_append_map hvq, hd,
        dropWhile_append_boundary hwq, dropWhile_append_boundary hnq,
        takeWhile_append_boundary hnq, h1, h2, h3, hE]

lemma cargoSub_of_search_none (nv : List Char) :
    ∀ (cs : List Char) (st : Bool), cargoSearch st cs = none → cargoSub nv st cs = cs := by
  intro cs
  induction cs with
  | nil => intro st _; cases st <;> rfl
  | cons c cs ih =>
    intro st h
    cases st with
    | false =>
      have h' : cargoSearch (c = ('\n')) cs = none := h
      show c :: cargoSub nv (c = ('\n')) cs = c :: cs
      rw [ih _ h']
    | true =>
      cases hm : matchAt (c :: cs) with
      | some t =>
        obtain ⟨pre, v, rest⟩ := t
        simp [cargoSearch, hm] at h
      | none =>
        have h' : cargoSearch (c = ('\n')) cs = none := by
          simpa [cargoSearch, hm] using h
        simp [cargoSub, hm, ih _ h']

lemma cargoSearch_decomp (nv : List Char) :
    ∀ (cs : List Char) (st : Bool) (v : List Char), cargoSearch st cs = some v →
    ∃ q pre rest, cs = q ++ (pre ++ v ++ ('"') :: rest) ∧
      cargoSub nv st cs = q ++ (pre ++ nv ++ ('"') :: rest) ∧ IsPre pre ∧ v ≠ [] ∧
      ∀ x ∈ v, notQuote x = true := by
  intro cs
  induction cs with
  | nil => intro st v h; cases st <;> simp [cargoSearch] at h
  | cons c cs ih =>
    intro st v h
    cases st with
    | false =>
      have h' : cargoSearch (c = ('\n')) cs = some v := h
      obtain ⟨q, pre, rest, e1, e2, hp, hv, hq⟩ := ih _ _ h'
      refine ⟨c :: q, pre, rest, ?_, ?_, hp, hv, hq⟩
      · rw [List.cons_append, ← e1]
      · show c :: cargoSub nv (c = ('\n')) cs = _
        rw [List.cons_append, ← e2]
    | true =>
      cases hm : matchAt (c :: cs) with
      | some t =>
        obtain ⟨pre, v0, rest⟩ := t
        have hv0 : v0 = v := by simpa [cargoSearch, hm] using h
        subst hv0
        obtain ⟨hp, hdec, hne, hq⟩ := matchAt_some hm
        refine ⟨[], pre, rest, ?_, ?_, hp, hne, hq⟩
        · simpa using hdec
        · simp [cargoSub, hm]
      | none =>
        have h' : cargoSearch (c = ('\n')) cs = some v := by
          simpa [cargoSearch, hm] using h
        obtain ⟨q, pre, rest, e1, e2, hp, hv, hq⟩ := ih _ _ h'
        refine ⟨c :: q, pre, rest, ?_, ?_, hp, hv, hq⟩
        · rw [List.cons_append, ← e1]
        · rw [List.cons_append, ← e2]
          simp [cargoSub, hm]

lemma cargoSub_roundtrip (nv : List Char) (hnv : nv ≠ [])
    (hqnv : ∀ x ∈ nv, notQuote x = true) :
    ∀ (cs : List Char) (st : Bool) (v : List Char), cargoSearch st cs = some v →
    cargoSearch st (cargoSub nv st cs) = some nv := by
  intro cs
  induction cs with
  | nil => intro st v h; cases st <;> simp [cargoSearch] at h
  | cons c cs ih =>
    intro st v h
    cases st with
    | false =>
      have h' : cargoSearch (c = ('\n')) cs = some v := h
      show cargoSearch (c = ('\n')) (cargoSub nv (c = ('\n')) cs) = some nv
      exact ih _ _ h'
    | true =>
      cases hm : matchAt (c :: cs) with
      | some t =>
        obtain ⟨pre, v0, rest⟩ := t
        obtain ⟨hp, hdec, hne, hq⟩ := matchAt_some hm
        have hsub : cargoSub nv true (c :: cs) = pre ++ nv ++ ('"') :: rest := by
          simp [cargoSub, hm]
        rw [hsub]
        obtain ⟨w1, w2, hw1, hw2, hpre⟩ := hp
        have hb : matchAt (pre ++ nv ++ ('"') :: rest) = some (pre, nv, rest) := by
          rw [hpre]
          exact matchAt_build w1 w2 nv rest hw1 hw2 hnv hqnv
        have hcons : ∃ tl, pre ++ nv ++ ('"') :: rest = ('v') :: tl := by
          rw [hpre]
          exact ⟨_, rfl⟩
        obtain ⟨tl, htl⟩ := hcons
        rw [htl]
        have hm2 : matchAt (('v') :: tl) = some (pre, nv, rest) := htl ▸ hb
        simp [cargoSearch, hm2]
      | none =>
        have h' : cargoSearch (c = ('\n')) cs = some v := by
          simpa [cargoSearch, hm] using h
        obtain ⟨q, pre, rest, e1, e2, hp, hv, hq⟩ := cargoSearch_decomp nv cs _ _ h'
        obtain ⟨w1, w2, hw1, hw2, hpre⟩ := hp
        have hsub : cargoSub nv true (c :: cs) = c :: cargoSub nv (c = ('\n')) cs := by
          simp [cargoSub, hm]
        rw [hsub, e2]
        have ht : ∀ u : List Char, c :: (q ++ (pre ++ u ++ ('"') :: rest)) =
            (c :: (q ++ (versionLit ++ w1 ++ ('=') :: w2))) ++
              ('"') :: (u ++ ('"') :: rest) := by
          intro u
          rw [hpre]
          simp [List.append_assoc]
        have holdb : boundaryCheck (c :: (q ++ (versionLit ++ w1 ++ ('=') :: w2))) = false := by
          have hbd := matchAt_boundary (c :: (q ++ (versionLit ++ w1 ++ ('=') :: w2)))
            v rest hv hq
          rw [← ht v] at hbd
          rw [show c :: (q ++ (pre ++ v ++ ('"') :: rest)) = c :: cs from by rw [← e1]] at hbd
          rw [hm] at hbd
          exact hbd.symm
        have hnew : matchAt (c :: (q ++ (pre ++ nv ++ ('"') :: rest))) = none := by
          have hbd := matchAt_boundary (c :: (q ++ (versionLit ++ w1 ++ ('=') :: w2)))
            nv rest hnv hqnv
          rw [holdb, ← ht nv] at hbd
          cases hx : matchAt (c :: (q ++ (pre ++ nv ++ ('"') :: rest))) with
          | none => rfl
          | some t2 => rw [hx] at hbd; simp at hbd
        have hassoc : c :: (q ++ (pre ++ nv ++ ('"') :: rest)) =
            c :: (q ++ (pre ++ (nv ++ ('"') :: rest))) := by
          simp [List.append_assoc]
        rw [hassoc] at hnew
        show cargoSearch true (c :: (q ++ (pre ++ nv ++ ('"') :: rest))) = some nv
        rw [hassoc]
        rw [show cargoSearch true (c :: (q ++ (pre ++ (nv ++ ('"') :: rest)))) =
            cargoSearch (c = ('\n')) (q ++ (pre ++ (nv ++ ('"') :: rest))) from by
          simp [cargoSearch, hnew]]
        rw [show q ++ (pre ++ (nv ++ ('"') :: rest)) = q ++ (pre ++ nv ++ ('"') :: rest) from by
          simp [List.append_assoc]]
        rw [← e2]
        exact ih _ _ h'

/-! ## version.py : JSON manifests and the filesystem state

The two JSON-backed manifests are modelled by their parsed documents: an
ordered association list, as a Python `dict` preserves insertion order and
`json.loads` / `json.dumps` with `indent=2` round-trip the document.  The
filesystem seen by the synchronizer holds the three optional file contents,
`None` meaning the file does not exist. -/

/-- JSON scalar values that can sit in a manifest's `version` field. -/
inductive JVal where
  | str (s : String)
  | num (q : Rat)
  | bool (b : Bool)
  | null
deriving DecidableEq

/-- Parsed JSON object, in insertion order. -/
abbrev Json := List (String × JVal)

/-- Python `dict.get`. -/
def getKey : Json → String → Option JVal
  | [], _ => none
  | (k, v) :: rest, key => if k = key then some v else getKey rest key

/-- Python `dict.__setitem__`: replace in place, else append. -/
def setKey : Json → String → JVal → Json
  | [], key, v => [(key, v)]
  | (k, w) :: rest, key, v =>
    if k = key then (k, v) :: rest else (k, w) :: setKey rest key v

/-- Model of `read_package_json_version`: `data.get("version", "0.0.0")`. -/
def read_package_json_version (d : Json) : JVal :=
  (getKey d ("version")).getD (JVal.str ("0.0.0"))

/-- Model of `write_package_json_version`: set `data["version"]` and
re-serialize the document. -/
def write_package_json_version (d : Json) (v : String) : Json :=
  setKey d ("version") (JVal.str v)

/-- Model of `read_tauri_conf_version` (same body as the npm reader). -/
def read_tauri_conf_version (d : Json) : JVal :=
  (getKey d ("version")).getD (JVal.str ("0.0.0"))

/-- Model of `write_tauri_conf_version` (same body as the npm writer). -/
def write_tauri_conf_version (d : Json) (v : String) : Json :=
  setKey d ("version") (JVal.str v)

/-- The three manifest files of `VERSION_FILES`; `none` means absent. -/
structure FS where
  npm : Option Json
  cargo : Option String
  conf : Option Json
deriving DecidableEq

/-- Model of `set_all_versions` (lines 110-128): write the version into
every file that exists, skipping absent ones. -/
def set_all_versions (fs : FS) (v : String) : FS :=
  { npm := fs.npm.map (fun d => write_package_json_version d v)
    cargo := fs.cargo.map (fun c => write_cargo_version c v)
    conf := fs.conf.map (fun d => write_tauri_conf_version d v) }

/-- Exactly three dot-separated nonempty ASCII digit runs and nothing else:
the spec's reading of the pattern `^\d+\.\d+\.\d+$`. -/
def isVersionString (s : String) : Bool :=
  match pySplitDot s.data with
  | [a, b, c] =>
    !a.isEmpty && a.all Char.isDigit && !b.isEmpty && b.all Char.isDigit &&
      !c.isEmpty && c.all Char.isDigit
  | _ => false

/-- Model of Python's `re.match(r"^\d+\.\d+\.\d+$", v)` being truthy: in
Python `$` also matches just before a single newline at the end of the
string, so `"1.2.3\n"` matches. -/
def pyMatchVersion (s : String) : Bool :=
  isVersionString s ||
    (match s.data.getLast? with
     | some c => if c = ('\n') then isVersionString (String.mk s.data.dropLast) else false
     | none => false)

/-- Model of `cmd_set` (lines 205-215): validate the argument against the
pattern, exit 1 without writing (`none`) when it does not match, otherwise
write to all existing files. -/
def cmd_set (fs : FS) (v : String) : Option FS :=
  if pyMatchVersion v then some (set_all_versions fs v) else none

/-- Python `str()` of a JSON scalar, used when the canonical version value
is interpolated into the Cargo substitution. -/
def jvalToPyStr : JVal → String
  | .str s => s
  | .num q => toString q
  | .bool true => ("True")
  | .bool false => ("False")
  | .null => ("None")

/-- Model of `cmd_sync` (lines 180-191): an explicit target is used as-is
whenever it is truthy (nonempty); `None` or the empty string fall back to
the canonical `package.json` version, whose absence raises (`.error`).
No format validation happens on either path. -/
def cmd_sync (fs : FS) (target : Option String) : Except String FS :=
  let fromNpm : Except String FS :=
    match fs.npm with
    | some d => .ok (set_all_versions fs (jvalToPyStr (read_package_json_version d)))
    | none => .error ("FileNotFoundError")
  match target with
  | some t => if t = ("") then fromNpm else .ok (set_all_versions fs t)
  | none => fromNpm

/-- Model of `get_all_versions` (lines 88-107): read every existing file in
the fixed order, skipping absent files; a Cargo file without a version line
raises `ValueError`. -/
def get_all_versions (fs : FS) : Except String (List (String × JVal)) :=
  let npmPart : List (String × JVal) :=
    match fs.npm with
    | some d => [(("npm"), read_package_json_version d)]
    | none => []
  let confPart : List (String × JVal) :=
    match fs.conf with
    | some d => [(("tauri_conf"), read_tauri_conf_version d)]
    | none => []
  match fs.cargo with
  | some c =>
    match read_cargo_version c with
    | some s => .ok (npmPart ++ ((("tauri_cargo"), JVal.str s)) :: confPart)
    | none => .error ("ValueError: Version not found")
  | none => .ok (npmPart ++ confPart)

/-- The `VERSION_FILES.get(name, name)` lookup used for column alignment. -/
def filePathOf (name : String) : String :=
  if name = ("npm") then ("youtube-downloader/package.json")
  else if name = ("tauri_cargo") then ("youtube-downloader/src-tauri/Cargo.toml")
  else if name = ("tauri_conf") then ("youtube-downloader/src-tauri/tauri.conf.json")
  else name

/-- Model of `cmd_status` (lines 154-177): collect the versions, compute the
alignment width with `max(...)` over the collected names — which raises
`ValueError` on an empty collection — then report whether the set of
distinct values has size one. -/
def cmd_status (fs : FS) : Except String Bool :=
  match get_all_versions fs with
  | .error e => .error e
  | .ok versions =>
    match (versions.map (fun p => (filePathOf p.1).length)).max? with
    | none => .error ("ValueError: max() arg is an empty sequence")
    | some _ => .ok ((versions.map Prod.snd).dedup.length == 1)

/-! ### Lemmas for the manifest claims -/

lemma getKey_setKey (d : Json) (k : String) (v : JVal) :
    getKey (setKey d k v) k = some v := by
  induction d with
  | nil => simp [setKey, getKey]
  | cons p rest ih =>
    obtain ⟨k', w⟩ := p
    by_cases hk : k' = k
    · rw [setKey, if_pos hk, getKey, if_pos hk]
    · rw [setKey, if_neg hk, getKey, if_neg hk]
      exact ih

lemma isVersionString_chars {v : String} (hv : isVersionString v = true) :
    v.data ≠ [] ∧ ∀ x ∈ v.data, notQuote x = true := by
  rw [isVersionString] at hv
  rcases hsp : pySplitDot v.data with _ | ⟨a, _ | ⟨b, _ | ⟨c, _ | ⟨d, t⟩⟩⟩⟩ <;> rw [hsp] at hv
  · exact absurd hv (by simp)
  · exact absurd hv (by simp)
  · exact absurd hv (by simp)
  case cons.cons.cons.cons => exact absurd hv (by simp)
  simp only [Bool.and_eq_true, List.all_eq_true] at hv
  obtain ⟨⟨⟨⟨⟨-, ha⟩, -⟩, hb⟩, -⟩, hc⟩ := hv
  have hjoin : v.data = a ++ ('.') :: (b ++ ('.') :: c) := by
    have hj := joinDots_pySplitDot v.data
    rw [hsp] at hj
    rw [← hj]
    rfl
  constructor
  · rw [hjoin]
    intro hcontra
    exact absurd hcontra (by simp)
  · intro x hx
    rw [hjoin] at hx
    have hdq : ∀ y : Char, y.isDigit = true → notQuote y = true := by
      intro y hy
      have : y ≠ ('"') := isDigit_ne y _ hy (by decide)
      simp [notQuote, this]
    simp only [List.mem_append, List.mem_cons] at hx
    rcases hx with h1 | h2 | h3 | h4
    · exact hdq x (ha x h1)
    · subst h2; rfl
    · exact hdq x (hb x h3)
    rcases h4 with h5 | h6
    · subst h5; rfl
    · exact hdq x (hc x h6)

/-! ## C4 : manifest round-trips -/

/-- C4. For every valid version string and every manifest content with a
readable version field, writing the version and reading it back yields
exactly that version, for the package-manifest JSON, the application-config
JSON, and the key-assignment Cargo file. -/
theorem c4_roundtrip (v : String) (hv : isVersionString v = true) (d e : Json) (c : String)
    (hc : (read_cargo_version c).isSome = true) :
    read_package_json_version (write_package_json_version d v) = JVal.str v ∧
    read_tauri_conf_version (write_tauri_conf_version e v) = JVal.str v ∧
    read_cargo_version (write_cargo_version c v) = some v := by
  obtain ⟨hne, hq⟩ := isVersionString_chars hv
  refine ⟨?_, ?_, ?_⟩
  · rw [read_package_json_version, write_package_json_version, getKey_setKey]
    rfl
  · rw [read_tauri_conf_version, write_tauri_conf_version, getKey_setKey]
    rfl
  · rw [read_cargo_version] at hc
    have hsome : ∃ w, cargoSearch true c.data = some w := by
      cases hx : cargoSearch true c.data with
      | none => rw [hx] at hc; simp at hc
      | some w => exact ⟨w, rfl⟩
    obtain ⟨w, hw⟩ := hsome
    have hrt := cargoSub_roundtrip v.data hne hq c.data true w hw
    rw [read_cargo_version, write_cargo_version]
    show (cargoSearch true (cargoSub v.data true c.data)).map String.mk = some v
    rw [hrt]
    rfl

/-- Witness for C4 at a concrete version and concrete manifest contents. -/
theorem c4_roundtrip_witness :
    read_package_json_version (write_package_json_version [] ("2.3.4")) = JVal.str ("2.3.4") ∧
    read_tauri_conf_version (write_tauri_conf_version [] ("2.3.4")) = JVal.str ("2.3.4") ∧
    read_cargo_version (write_cargo_version ("version = \"0.1.0\"\n") ("2.3.4")) =
      some ("2.3.4") :=
  c4_roundtrip ("2.3.4") (by decide) [] [] ("version = \"0.1.0\"\n") (by decide)

/-! ## C9 : Cargo read/write on a file with no version line -/

/-- C9 counterexample. On a Cargo file whose text has no `version = "..."`
line the read raises (`none`), but the write does not fail: it succeeds and
rewrites the file unchanged, contradicting the claim that both operations
fail. -/
theorem c9_counterexample :
    read_cargo_version ("name = \"app\"\n") = none ∧
    write_cargo_version ("name = \"app\"\n") ("9.9.9") = ("name = \"app\"\n") := by
  exact ⟨by decide, by decide⟩

/-- C9 amended. The read fails on a file without a matching version line,
and on exactly those files the write silently succeeds, leaving the content
byte-identical instead of failing. -/
theorem c9_amended (c v : String) (h : read_cargo_version c = none) :
    write_cargo_version c v = c := by
  have h' : cargoSearch true c.data = none := by
    cases hx : cargoSearch true c.data with
    | none => rfl
    | some w => rw [read_cargo_version, hx] at h; simp at h
  rw [write_cargo_version, cargoSub_of_search_none _ _ _ h']

/-- Witness for the amended C9. -/
theorem c9_amended_witness :
    write_cargo_version ("name = \"app\"\n") ("9.9.9") = ("name = \"app\"\n") :=
  c9_amended ("name = \"app\"\n") ("9.9.9") (by decide)

/-! ## C2 : cmd_set validation -/

/-- C2 counterexample. The string made of `"1.2.3"` plus a trailing newline
is not three dot-separated digit runs and nothing else, yet `cmd_set`
accepts it (Python's `$` matches before a final newline) and writes it into
the existing manifest files, embedding the newline inside the Cargo quotes. -/
theorem c2_counterexample :
    isVersionString ("1.2.3\n") = false ∧
    cmd_set ⟨some [], some ("version = \"1.0.0\"\n"), some []⟩ ("1.2.3\n") =
      some (set_all_versions ⟨some [], some ("version = \"1.0.0\"\n"), some []⟩ ("1.2.3\n")) ∧
    (set_all_versions ⟨some [], some ("version = \"1.0.0\"\n"), some []⟩ ("1.2.3\n")).cargo =
      some ("version = \"1.2.3\n\"\n") := by
  exact ⟨by decide, by decide, by decide⟩

/-- C2 amended. `cmd_set` accepts exactly the strings matching Python's
`re.match(r"^\d+\.\d+\.\d+$", v)` — three dot-separated digit runs,
optionally followed by one trailing newline; on acceptance it writes to
every existing manifest file, and on rejection it exits with status 1
(modelled by `none`) without modifying anything. -/
theorem c2_amended (fs : FS) (v : String) :
    (pyMatchVersion v = true → cmd_set fs v = some (set_all_versions fs v)) ∧
    (pyMatchVersion v = false → cmd_set fs v = none) ∧
    pyMatchVersion v = (isVersionString v ||
      (v.data.getLast? == some ('\n') && isVersionString (String.mk v.data.dropLast))) ∧
    (set_all_versions fs v).npm = fs.npm.map (fun d => write_package_json_version d v) ∧
    (set_all_versions fs v).cargo = fs.cargo.map (fun c => write_cargo_version c v) ∧
    (set_all_versions fs v).conf = fs.conf.map (fun d => write_tauri_conf_version d v) := by
  refine ⟨fun h => by rw [cmd_set, if_pos h], fun h => by rw [cmd_set, h]; rfl, ?_, rfl, rfl, rfl⟩
  rw [pyMatchVersion]
  rcases hl : v.data.getLast? with _ | c
  · simp
  · by_cases hc : c = ('\n')
    · subst hc; simp
    · simp [hc]

/-- Witness for the amended C2: an accepted and a rejected input. -/
theorem c2_amended_witness :
    cmd_set ⟨none, none, none⟩ ("1.0.0") =
      some (set_all_versions ⟨none, none, none⟩ ("1.0.0")) ∧
    cmd_set ⟨none, none, none⟩ ("v1.2.3") = none :=
  ⟨(c2_amended ⟨none, none, none⟩ ("1.0.0")).1 (by decide),
    (c2_amended ⟨none, none, none⟩ ("v1.2.3")).2.1 (by decide)⟩

/-! ## C3 : cmd_sync with an explicit target -/

/-- C3 counterexample. `cmd_sync` with the explicit target `"v1.2.x"` — not
a valid three-component version string — is not rejected: it writes the
string as-is into the existing manifest files. -/
theorem c3_counterexample :
    cmd_sync ⟨some [], some ("version = \"1.0.0\"\n"), some []⟩ (some ("v1.2.x")) =
      .ok (set_all_versions ⟨some [], some ("version = \"1.0.0\"\n"), some []⟩ ("v1.2.x")) ∧
    (set_all_versions ⟨some [], some ("version = \"1.0.0\"\n"), some []⟩ ("v1.2.x")).cargo =
      some ("version = \"v1.2.x\"\n") ∧
    isVersionString ("v1.2.x") = false := by
  exact ⟨by rfl, by decide, by decide⟩

/-- C3 amended. `cmd_sync` performs no format validation on an explicit
target: every nonempty target string is written as-is to all existing
manifest files (an empty target is falsy in Python and falls back to the
canonical source). -/
theorem c3_amended (fs : FS) (t : String) (h : t ≠ ("")) :
    cmd_sync fs (some t) = .ok (set_all_versions fs t) := by
  rw [cmd_sync]
  simp [h]

/-- Witness for the amended C3. -/
theorem c3_amended_witness :
    cmd_sync ⟨none, none, none⟩ (some ("junk")) =
      .ok (set_all_versions ⟨none, none, none⟩ ("junk")) :=
  c3_amended ⟨none, none, none⟩ ("junk") (by decide)

/-! ## C10 : status with no manifest files -/

/-- C10. When none of the three manifest files exist, `cmd_status` does not
report a synchronization verdict: the column width is `max()` over an empty
collection of names, which raises `ValueError`, so the command terminates
abnormally. -/
theorem c10_status_all_absent :
    cmd_status ⟨none, none, none⟩ = .error ("ValueError: max() arg is an empty sequence") := rfl

/-! ## formats.py : format descriptors and the report (lines 118-245)

A format descriptor is the loosely-typed record returned by the external
metadata library.  The codec fields keep the three-way distinction the code
observes through `f.get("vcodec", "none")`: key absent (`none`), key present
with JSON null (`some none`), key present with a string (`some (some s)`).
Numeric fields are optional numbers read through `or 0` / `get(..., 0)`
defaults.  `format_id` and `ext` are the always-present identifier and
container extension of the collaborator contract. -/

structure Format where
  format_id : String := ("?")
  ext : String := ("?")
  vcodec : Option (Option String) := none
  acodec : Option (Option String) := none
  height : Option Rat := none
  fps : Option Rat := none
  abr : Option Rat := none
deriving DecidableEq

/-- Video test of the partition loop: `vcodec != "none" and vcodec is not
None`, where a missing key defaults to `"none"`. -/
def isVideoFmt (f : Format) : Bool :=
  match f.vcodec with
  | some (some s) => s != ("none")
  | _ => false

/-- Audio test of the partition loop, tried only when the video test fails. -/
def isAudioFmt (f : Format) : Bool :=
  match f.acodec with
  | some (some s) => s != ("none")
  | _ => false

/-- The `video_formats` list built by the classification loop. -/
def videoFormats (l : List Format) : List Format := l.filter isVideoFmt

/-- The `audio_formats` list built by the classification loop. -/
def audioFormats (l : List Format) : List Format :=
  l.filter (fun f => !isVideoFmt f && isAudioFmt f)

/-- Sort key `x.get("abr") or 0`. -/
def abrKey (f : Format) : Rat := f.abr.getD 0

/-- Sort key component `x.get("height") or 0`. -/
def heightKey (f : Format) : Rat := f.height.getD 0

/-- Sort key component `x.get("fps") or 0`. -/
def fpsKey (f : Format) : Rat := f.fps.getD 0

/-- Comparator of the audio table: descending by bitrate, stable. -/
def audioLe (a b : Format) : Bool := decide (abrKey b ≤ abrKey a)

/-- Comparator of the video table: descending by the lexicographic pair
`(height, fps)`, stable. -/
def videoLe (a b : Format) : Bool :=
  decide (heightKey b < heightKey a ∨ (heightKey b = heightKey a ∧ fpsKey b ≤ fpsKey a))

/-- Rendered order of the audio table: `sorted(..., reverse=True)` is a
stable merge sort under the reversed comparator. -/
def sortAudio (l : List Format) : List Format := l.mergeSort audioLe

/-- Rendered order of the video table. -/
def sortVideo (l : List Format) : List Format := l.mergeSort videoLe

/-- The `f.get("vcodec", "")` lookup of the recommendation scan. -/
def vcodecStr (f : Format) : String :=
  match f.vcodec with
  | some (some s) => s
  | _ => ("")

/-- Recommendation filter `f.get("vcodec", "").startswith("avc1")`, as a
prefix test on the character sequence. -/
def startsAvc1 (f : Format) : Bool := (("avc1") : String).data.isPrefixOf (vcodecStr f).data

/-- Recommendation filter `f.get("ext") == "m4a"`. -/
def isM4a (f : Format) : Bool := f.ext == ("m4a")

/-- One step of the best-candidate scan: replace the current best when the
candidate passes the filter and has a strictly larger key, or when there is
no current best. -/
def stepBest (p : Format → Bool) (key : Format → Rat) (best : Option Format)
    (f : Format) : Option Format :=
  if p f then
    match best with
    | none => some f
    | some b => if key b < key f then some f else some b
  else best

/-- The linear scan of the recommendation section. -/
def pickBest (p : Format → Bool) (key : Format → Rat) (l : List Format) : Option Format :=
  l.foldl (stepBest p key) none

/-- `best_video`: highest `get("height", 0)` among avc1-prefixed video
descriptors. -/
def best_video (vfs : List Format) : Option Format := pickBest startsAvc1 heightKey vfs

/-- `best_audio`: highest `get("abr", 0)` among m4a audio descriptors. -/
def best_audio (afs : List Format) : Option Format := pickBest isM4a abrKey afs

/-- The combined-format download command emitted when both bests exist. -/
def combinedCmd (vid aud url : String) : String :=
  ("yt-dlp --cookies cookies.txt -f ") ++ vid ++ ("+") ++ aud ++ (" \"") ++ url ++ ("\"")

/-- The always-emitted best-compatible auto-select command template. -/
def autoCmd (url : String) : String :=
  ("yt-dlp --cookies cookies.txt -f \"bv*[vcodec^=avc1]+ba[ext=m4a]/b\" \"") ++ url ++ ("\"")

/-- The always-emitted audio-only extraction command template. -/
def mp3Cmd (url : String) : String :=
  ("yt-dlp --cookies cookies.txt -x --audio-format mp3 \"") ++ url ++ ("\"")

/-- The information printed by a non-empty report. -/
structure Report where
  audioRows : List Format
  videoRows : List Format
  combined : Option String
  genericCmds : List String

/-- The structured record returned by the external fetch library. -/
structure Info where
  title : String
  uploader : String
  duration : Nat
  webpage_url : String
  formats : List Format

/-- Model of `print_formats`: `none` is the "no formats found" report that
skips tables and recommendations; otherwise the classified, sorted tables
and the recommendation lines are produced. -/
def print_formats (info : Info) : Option Report :=
  if info.formats.isEmpty then none
  else
    some {
      audioRows := sortAudio (audioFormats info.formats)
      videoRows := sortVideo (videoFormats info.formats)
      combined :=
        match best_video (videoFormats info.formats),
            best_audio (audioFormats info.formats) with
        | some bv, some ba =>
          some (combinedCmd bv.format_id ba.format_id info.webpage_url)
        | _, _ => none
      genericCmds := [autoCmd info.webpage_url, mp3Cmd info.webpage_url] }

/-- The two contextual hints of the error handler in `get_formats`. -/
inductive Hint where
  | http403
  | auth
deriving DecidableEq

/-- Substring containment on character lists, `needle in haystack`. -/
def listInfix (p : List Char) : List Char → Bool
  | [] => p.isEmpty
  | c :: cs => p.isPrefixOf (c :: cs) || listInfix p cs

/-- Python `"403" in str(e)`. -/
def contains403 (e : String) : Bool := listInfix (("403").data) e.data

/-- Python `"Sign in" in str(e) or "login" in str(e).lower()` (ASCII
lowering). -/
def signinPhrase (e : String) : Bool :=
  listInfix (("Sign in").data) e.data ||
    listInfix (("login").data) (e.data.map Char.toLower)

/-- Hint selection of the `except` block in `get_formats`. -/
def hintFor (e : String) : Option Hint :=
  if contains403 e then some Hint.http403
  else if signinPhrase e then some Hint.auth
  else none

/-- Model of `get_formats`: the fetched info on success; on an exception the
error plus hint are printed and `None` is returned. -/
def get_formats (fetch : Except String Info) : Option Info × Option Hint :=
  match fetch with
  | .ok i => (some i, none)
  | .error e => (none, hintFor e)

/-- Model of `main` after the fetch: exit code and the printed report
(`none` when the command fails before reaching `print_formats`). -/
def mainRun (fetch : Except String Info) : Nat × Option (Option Report) :=
  match (get_formats fetch).1 with
  | some i => (0, some (print_formats i))
  | none => (1, none)

/-! ### Lemmas for the reporter claims -/

lemma isVideoFmt_iff (f : Format) :
    isVideoFmt f = true ↔ ∃ s, f.vcodec = some (some s) ∧ s ≠ ("none") := by
  cases hv : f.vcodec with
  | none => simp [isVideoFmt, hv]
  | some o =>
    cases o with
    | none => simp [isVideoFmt, hv]
    | some s => simp [isVideoFmt, hv, bne_iff_ne]

lemma isAudioFmt_iff (f : Format) :
    isAudioFmt f = true ↔ ∃ s, f.acodec = some (some s) ∧ s ≠ ("none") := by
  cases hv : f.acodec with
  | none => simp [isAudioFmt, hv]
  | some o =>
    cases o with
    | none => simp [isAudioFmt, hv]
    | some s => simp [isAudioFmt, hv, bne_iff_ne]

/-! ## C5 : partition of descriptors -/

/-- C5. A descriptor lands in the video table exactly when its video codec
key is present, non-null, and not the literal `"none"`; otherwise it lands
in the audio table exactly when its audio codec passes the same test; a
descriptor passing neither test is dropped, and no descriptor is in both
tables. -/
theorem c5_partition (l : List Format) (f : Format) :
    (f ∈ videoFormats l ↔ f ∈ l ∧ ∃ s, f.vcodec = some (some s) ∧ s ≠ ("none")) ∧
    (f ∈ audioFormats l ↔ f ∈ l ∧ (¬∃ s, f.vcodec = some (some s) ∧ s ≠ ("none")) ∧
      ∃ s, f.acodec = some (some s) ∧ s ≠ ("none")) ∧
    ¬(f ∈ videoFormats l ∧ f ∈ audioFormats l) := by
  have hv := isVideoFmt_iff f
  have ha := isAudioFmt_iff f
  have hv' : isVideoFmt f = false ↔ ¬∃ s, f.vcodec = some (some s) ∧ s ≠ ("none") := by
    rw [← hv]
    simp
  refine ⟨?_, ?_, ?_⟩
  · rw [videoFormats, List.mem_filter, hv]
  · rw [audioFormats, List.mem_filter]
    constructor
    · rintro ⟨hm, hcond⟩
      rw [Bool.and_eq_true, Bool.not_eq_true'] at hcond
      exact ⟨hm, hv'.mp hcond.1, ha.mp hcond.2⟩
    · rintro ⟨hm, hnv, hsa⟩
      refine ⟨hm, ?_⟩
      rw [Bool.and_eq_true, Bool.not_eq_true']
      exact ⟨hv'.mpr hnv, ha.mpr hsa⟩
  · rintro ⟨h1, h2⟩
    rw [videoFormats, List.mem_filter] at h1
    rw [audioFormats, List.mem_filter, Bool.and_eq_true, Bool.not_eq_true'] at h2
    rw [h1.2] at h2
    exact absurd h2.2.1 (by simp)

/-! ## C6 : ordering of the rendered tables -/

lemma audioLe_trans : ∀ a b c : Format, audioLe a b = true → audioLe b c = true →
    audioLe a c = true := by
  intro a b c h1 h2
  rw [audioLe, decide_eq_true_iff] at h1 h2 ⊢
  exact h2.trans h1

lemma audioLe_total : ∀ a b : Format, (audioLe a b || audioLe b a) = true := by
  intro a b
  rw [Bool.or_eq_true, audioLe, audioLe, decide_eq_true_iff, decide_eq_true_iff]
  exact le_total _ _

lemma videoLe_trans : ∀ a b c : Format, videoLe a b = true → videoLe b c = true →
    videoLe a c = true := by
  intro a b c h1 h2
  rw [videoLe, decide_eq_true_iff] at h1 h2 ⊢
  rcases h1 with h1 | ⟨e1, f1⟩ <;> rcases h2 with h2 | ⟨e2, f2⟩
  · exact Or.inl (h2.trans h1)
  · exact Or.inl (lt_of_le_of_lt (le_of_eq e2) h1)
  · exact Or.inl (lt_of_lt_of_le h2 (le_of_eq e1))
  · exact Or.inr ⟨e2.trans e1, f2.trans f1⟩

lemma videoLe_total : ∀ a b : Format, (videoLe a b || videoLe b a) = true := by
  intro a b
  rw [Bool.or_eq_true, videoLe, videoLe, decide_eq_true_iff, decide_eq_true_iff]
  rcases lt_trichotomy (heightKey b) (heightKey a) with h | h | h
  · exact Or.inl (Or.inl h)
  · rcases le_total (fpsKey b) (fpsKey a) with hf | hf
    · exact Or.inl (Or.inr ⟨h, hf⟩)
    · exact Or.inr (Or.inr ⟨h.symm, hf⟩)
  · exact Or.inr (Or.inl h)

/-- C6. In every rendered report the audio table is a permutation of the
audio descriptors ordered descending by average bitrate with a missing
bitrate read as 0, and the video table is a permutation of the video
descriptors ordered descending by the lexicographic pair `(height, fps)`
with missing values read as 0. -/
theorem c6_table_order (info : Info) (r : Report) (h : print_formats info = some r) :
    r.audioRows.Pairwise (fun a b => abrKey b ≤ abrKey a) ∧
    r.audioRows.Perm (audioFormats info.formats) ∧
    r.videoRows.Pairwise (fun a b =>
      heightKey b < heightKey a ∨ (heightKey b = heightKey a ∧ fpsKey b ≤ fpsKey a)) ∧
    r.videoRows.Perm (videoFormats info.formats) := by
  rw [print_formats] at h
  by_cases he : info.formats.isEmpty
  · rw [if_pos he] at h
    exact absurd h (by simp)
  rw [if_neg he] at h
  rw [Option.some_inj] at h
  subst h
  refine ⟨?_, ?_, ?_, ?_⟩
  · have hs := List.sorted_mergeSort audioLe_trans audioLe_total
      (audioFormats info.formats)
    exact hs.imp (fun hab => by rwa [audioLe, decide_eq_true_iff] at hab)
  · exact List.mergeSort_perm (audioFormats info.formats) audioLe
  · have hs := List.sorted_mergeSort videoLe_trans videoLe_total
      (videoFormats info.formats)
    exact hs.imp (fun hab => by rwa [videoLe, decide_eq_true_iff] at hab)
  · exact List.mergeSort_perm (videoFormats info.formats) videoLe

/-- Sample audio descriptor used by concrete witnesses: id 140, m4a, AAC,
128k average bitrate. -/
def sampleAudio : Format :=
  { format_id := ("140"), ext := ("m4a"), acodec := some (some ("mp4a.40.2")),
    abr := some 128 }

/-- Sample video descriptor used by concrete witnesses: id 137, mp4, H.264,
1080p at 30 fps. -/
def sampleVideo : Format :=
  { format_id := ("137"), ext := ("mp4"), vcodec := some (some ("avc1.640028")),
    height := some 1080, fps := some 30 }

/-- Witness for C6 on a concrete fetch result. -/
theorem c6_table_order_witness :
    (sortAudio (audioFormats [sampleAudio, sampleVideo])).Pairwise
      (fun a b => abrKey b ≤ abrKey a) ∧
    (sortAudio (audioFormats [sampleAudio, sampleVideo])).Perm
      (audioFormats [sampleAudio, sampleVideo]) ∧
    (sortVideo (videoFormats [sampleAudio, sampleVideo])).Pairwise
      (fun a b => heightKey b < heightKey a ∨
        (heightKey b = heightKey a ∧ fpsKey b ≤ fpsKey a)) ∧
    (sortVideo (videoFormats [sampleAudio, sampleVideo])).Perm
      (videoFormats [sampleAudio, sampleVideo]) :=
  c6_table_order ⟨("t"), ("u"), 10, ("w"), [sampleAudio, sampleVideo]⟩
    { audioRows := sortAudio (audioFormats [sampleAudio, sampleVideo])
      videoRows := sortVideo (videoFormats [sampleAudio, sampleVideo])
      combined :=
        match best_video (videoFormats [sampleAudio, sampleVideo]),
            best_audio (audioFormats [sampleAudio, sampleVideo]) with
        | some bv, some ba => some (combinedCmd bv.format_id ba.format_id ("w"))
        | _, _ => none
      genericCmds := [autoCmd ("w"), mp3Cmd ("w")] }
    (by rfl)

/-! ## C7 : recommendation selection -/

lemma stepBest_cases (p : Format → Bool) (key : Format → Rat) (acc : Option Format)
    (f0 : Format) :
    (p f0 = false ∧ stepBest p key acc f0 = acc) ∨
    (p f0 = true ∧ acc = none ∧ stepBest p key acc f0 = some f0) ∨
    (p f0 = true ∧ ∃ a0, acc = some a0 ∧
      ((key a0 < key f0 ∧ stepBest p key acc f0 = some f0) ∨
       (key f0 ≤ key a0 ∧ stepBest p key acc f0 = some a0))) := by
  by_cases hp : p f0 = true
  · cases hc : acc with
    | none =>
      refine Or.inr (Or.inl ⟨hp, rfl, ?_⟩)
      rw [stepBest.eq_def]
      simp [hp]
    | some a0 =>
      by_cases hk : key a0 < key f0
      · refine Or.inr (Or.inr ⟨hp, a0, rfl, Or.inl ⟨hk, ?_⟩⟩)
        rw [stepBest.eq_def]
        simp [hp, hk]
      · refine Or.inr (Or.inr ⟨hp, a0, rfl, Or.inr ⟨le_of_not_lt hk, ?_⟩⟩)
        rw [stepBest.eq_def]
        simp [hp, hk]
  · refine Or.inl ⟨by simpa using hp, ?_⟩
    rw [stepBest.eq_def]
    simp [hp]

lemma pickBest_fold (p : Format → Bool) (key : Format → Rat) :
    ∀ (l : List Format) (acc : Option Format),
    (∀ a, acc = some a → p a = true) →
    ((l.foldl (stepBest p key) acc = none → acc = none ∧ ∀ f ∈ l, p f = false) ∧
     (∀ b, l.foldl (stepBest p key) acc = some b → p b = true ∧
       (b ∈ l ∨ acc = some b) ∧
       (∀ f ∈ l, p f = true → key f ≤ key b) ∧
       (∀ a, acc = some a → key a ≤ key b))) := by
  intro l
  induction l with
  | nil =>
    intro acc hacc
    refine ⟨fun h => ⟨h, by simp⟩, fun b hb => ⟨hacc b hb, Or.inr hb, by simp, ?_⟩⟩
    intro a ha
    have hb' : acc = some b := hb
    rw [ha] at hb'
    obtain rfl : a = b := by injection hb'
    exact le_refl _
  | cons f0 l ih =>
    intro acc hacc
    have hstep : (f0 :: l).foldl (stepBest p key) acc =
        l.foldl (stepBest p key) (stepBest p key acc f0) := rfl
    have hcases := stepBest_cases p key acc f0
    have hacc' : ∀ a, stepBest p key acc f0 = some a → p a = true := by
      intro a ha
      rcases hcases with ⟨hp, hs⟩ | ⟨hp, hc, hs⟩ | ⟨hp, a0, hc, ⟨-, hs⟩ | ⟨-, hs⟩⟩
      · rw [hs] at ha
        exact hacc a ha
      · rw [hs] at ha
        obtain rfl : f0 = a := by injection ha
        exact hp
      · rw [hs] at ha
        obtain rfl : f0 = a := by injection ha
        exact hp
      · rw [hs] at ha
        obtain rfl : a0 = a := by injection ha
        exact hacc a0 hc
    obtain ⟨ihn, ihs⟩ := ih (stepBest p key acc f0) hacc'
    constructor
    · intro hnone
      rw [hstep] at hnone
      obtain ⟨hsn, hall⟩ := ihn hnone
      have hpf0 : p f0 = false ∧ acc = none := by
        rcases hcases with ⟨hp, hs⟩ | ⟨hp, hc, hs⟩ | ⟨hp, a0, hc, ⟨-, hs⟩ | ⟨-, hs⟩⟩
        · rw [hs] at hsn
          exact ⟨hp, hsn⟩
        · rw [hs] at hsn
          exact absurd hsn (by simp)
        · rw [hs] at hsn
          exact absurd hsn (by simp)
        · rw [hs] at hsn
          exact absurd hsn (by simp)
      refine ⟨hpf0.2, fun f hf => ?_⟩
      rcases List.mem_cons.mp hf with rfl | hf'
      · exact hpf0.1
      · exact hall f hf'
    · intro b hb
      rw [hstep] at hb
      obtain ⟨hpb, hmem, hmax, haccle⟩ := ihs b hb
      have hf0le : p f0 = true → key f0 ≤ key b := by
        intro hp
        rcases hcases with ⟨hps, -⟩ | ⟨-, -, hs⟩ | ⟨-, a0, -, ⟨-, hs⟩ | ⟨hle, hs⟩⟩
        · rw [hp] at hps
          exact absurd hps (by simp)
        · exact haccle f0 hs
        · exact haccle f0 hs
        · exact hle.trans (haccle a0 hs)
      refine ⟨hpb, ?_, ?_, ?_⟩
      · rcases hmem with hm | hm
        · exact Or.inl (List.mem_cons_of_mem f0 hm)
        · rcases hcases with ⟨-, hs⟩ | ⟨-, -, hs⟩ | ⟨-, a0, hc, ⟨-, hs⟩ | ⟨-, hs⟩⟩
          · rw [hs] at hm
            exact Or.inr hm
          · rw [hs] at hm
            have hfb : f0 = b := by injection hm
            subst hfb
            exact Or.inl (List.mem_cons_self f0 l)
          · rw [hs] at hm
            have hfb : f0 = b := by injection hm
            subst hfb
            exact Or.inl (List.mem_cons_self f0 l)
          · rw [hs] at hm
            have hab : a0 = b := by injection hm
            subst hab
            exact Or.inr hc
      · intro f hf hpf
        rcases List.mem_cons.mp hf with rfl | hf'
        · exact hf0le hpf
        · exact hmax f hf' hpf
      · intro a ha
        rcases hcases with ⟨-, hs⟩ | ⟨-, hc, -⟩ | ⟨-, a0, hc, ⟨hk, hs⟩ | ⟨-, hs⟩⟩
        · exact haccle a (hs.trans ha)
        · rw [ha] at hc
          exact absurd hc (by simp)
        · rw [ha] at hc
          have haa : a = a0 := by injection hc
          subst haa
          exact (le_of_lt hk).trans (haccle f0 hs)
        · rw [ha] at hc
          have haa : a = a0 := by injection hc
          subst haa
          exact haccle a hs

lemma best_video_spec (vfs : List Format) :
    (best_video vfs = none → ∀ f ∈ vfs, startsAvc1 f = false) ∧
    (∀ b, best_video vfs = some b → startsAvc1 b = true ∧ b ∈ vfs ∧
      ∀ f ∈ vfs, startsAvc1 f = true → heightKey f ≤ heightKey b) := by
  have h := pickBest_fold startsAvc1 heightKey vfs none (by intro a ha; simp at ha)
  refine ⟨fun hn => (h.1 hn).2, fun b hb => ?_⟩
  obtain ⟨hp, hm, hmax, -⟩ := h.2 b hb
  refine ⟨hp, ?_, hmax⟩
  rcases hm with hm | hm
  · exact hm
  · exact absurd hm (by simp)

lemma best_audio_spec (afs : List Format) :
    (best_audio afs = none → ∀ f ∈ afs, isM4a f = false) ∧
    (∀ b, best_audio afs = some b → isM4a b = true ∧ b ∈ afs ∧
      ∀ f ∈ afs, isM4a f = true → abrKey f ≤ abrKey b) := by
  have h := pickBest_fold isM4a abrKey afs none (by intro a ha; simp at ha)
  refine ⟨fun hn => (h.1 hn).2, fun b hb => ?_⟩
  obtain ⟨hp, hm, hmax, -⟩ := h.2 b hb
  refine ⟨hp, ?_, hmax⟩
  rcases hm with hm | hm
  · exact hm
  · exact absurd hm (by simp)

lemma string_data_append (s t : String) : (s ++ t).data = s.data ++ t.data := by
  cases s
  cases t
  rfl

lemma infix_of_parts (x pre post : List Char) : x <:+: pre ++ x ++ post :=
  List.infix_append pre x post

/-- C7. The recommendation step selects as best video the maximum-height
video descriptor whose codec starts with `"avc1"` and as best audio the
maximum-bitrate audio descriptor with extension `"m4a"`; the combined
download command referencing both identifiers is emitted exactly when both
exist, and the two generic command templates are emitted in every non-empty
report. -/
theorem c7_recommendation (info : Info) (r : Report) (h : print_formats info = some r) :
    ((r.combined).isSome = true ↔ (best_video (videoFormats info.formats)).isSome = true ∧
      (best_audio (audioFormats info.formats)).isSome = true) ∧
    (∀ bv ba, best_video (videoFormats info.formats) = some bv →
      best_audio (audioFormats info.formats) = some ba →
      r.combined = some (combinedCmd bv.format_id ba.format_id info.webpage_url) ∧
      bv.format_id.data <:+: (combinedCmd bv.format_id ba.format_id info.webpage_url).data ∧
      ba.format_id.data <:+: (combinedCmd bv.format_id ba.format_id info.webpage_url).data) ∧
    (∀ b, best_video (videoFormats info.formats) = some b →
      startsAvc1 b = true ∧ b ∈ videoFormats info.formats ∧
      ∀ f ∈ videoFormats info.formats, startsAvc1 f = true → heightKey f ≤ heightKey b) ∧
    (best_video (videoFormats info.formats) = none →
      ∀ f ∈ videoFormats info.formats, startsAvc1 f = false) ∧
    (∀ b, best_audio (audioFormats info.formats) = some b →
      isM4a b = true ∧ b ∈ audioFormats info.formats ∧
      ∀ f ∈ audioFormats info.formats, isM4a f = true → abrKey f ≤ abrKey b) ∧
    (best_audio (audioFormats info.formats) = none →
      ∀ f ∈ audioFormats info.formats, isM4a f = false) ∧
    r.genericCmds = [autoCmd info.webpage_url, mp3Cmd info.webpage_url] := by
  rw [print_formats] at h
  by_cases he : info.formats.isEmpty
  · rw [if_pos he] at h
    exact absurd h (by simp)
  rw [if_neg he, Option.some_inj] at h
  subst h
  refine ⟨?_, ?_, fun b hb => ?_, fun hn => (best_video_spec _).1 hn,
    fun b hb => ?_, fun hn => (best_audio_spec _).1 hn, rfl⟩
  · cases hbv : best_video (videoFormats info.formats) with
    | none => simp [hbv]
    | some bv =>
      cases hba : best_audio (audioFormats info.formats) with
      | none => simp [hbv, hba]
      | some ba => simp [hbv, hba]
  · intro bv ba hbv hba
    refine ⟨by simp [hbv, hba], ?_, ?_⟩
    · have : (combinedCmd bv.format_id ba.format_id info.webpage_url).data =
          (("yt-dlp --cookies cookies.txt -f ") : String).data ++ bv.format_id.data ++
            ((("+") ++ ba.format_id ++ (" \"") ++ info.webpage_url ++ ("\"")) : String).data := by
        rw [combinedCmd]
        simp [string_data_append, List.append_assoc]
      rw [this]
      exact infix_of_parts _ _ _
    · have : (combinedCmd bv.format_id ba.format_id info.webpage_url).data =
          ((("yt-dlp --cookies cookies.txt -f ") ++ bv.format_id ++ ("+")) : String).data ++
            ba.format_id.data ++ (((" \"") ++ info.webpage_url ++ ("\"")) : String).data := by
        rw [combinedCmd]
        simp [string_data_append, List.append_assoc]
      rw [this]
      exact infix_of_parts _ _ _
  · exact (best_video_spec _).2 b hb
  · exact (best_audio_spec _).2 b hb

/-- Witness for C7: a fetch result carrying one H.264 video and one m4a
audio descriptor produces the combined command plus the generic templates. -/
theorem c7_recommendation_witness :
    (∀ bv ba, best_video (videoFormats [sampleAudio, sampleVideo]) = some bv →
      best_audio (audioFormats [sampleAudio, sampleVideo]) = some ba →
      (match best_video (videoFormats [sampleAudio, sampleVideo]),
          best_audio (audioFormats [sampleAudio, sampleVideo]) with
        | some v, some a => some (combinedCmd v.format_id a.format_id ("w"))
        | _, _ => none) =
        some (combinedCmd bv.format_id ba.format_id ("w")) ∧
      bv.format_id.data <:+: (combinedCmd bv.format_id ba.format_id ("w")).data ∧
      ba.format_id.data <:+: (combinedCmd bv.format_id ba.format_id ("w")).data) ∧
    best_video (videoFormats [sampleAudio, sampleVideo]) = some sampleVideo ∧
    best_audio (audioFormats [sampleAudio, sampleVideo]) = some sampleAudio := by
  have h := c7_recommendation ⟨("t"), ("u"), 10, ("w"), [sampleAudio, sampleVideo]⟩
    { audioRows := sortAudio (audioFormats [sampleAudio, sampleVideo])
      videoRows := sortVideo (videoFormats [sampleAudio, sampleVideo])
      combined :=
        match best_video (videoFormats [sampleAudio, sampleVideo]),
            best_audio (audioFormats [sampleAudio, sampleVideo]) with
        | some bv, some ba => some (combinedCmd bv.format_id ba.format_id ("w"))
        | _, _ => none
      genericCmds := [autoCmd ("w"), mp3Cmd ("w")] }
    (by rfl)
  exact ⟨h.2.1, by decide, by decide⟩

/-! ## C8 : fetch failure handling -/

/-- C8. A failing fetch exits with status 1 and prints no report, with the
403 hint when the error text contains `"403"` and the authentication hint
when it instead contains a sign-in/login phrase; a successful fetch exits
with status 0, also when it yields zero classifiable formats. -/
theorem c8_error_handling (e : String) (i : Info) :
    mainRun (.error e) = (1, none) ∧
    (contains403 e = true → hintFor e = some Hint.http403) ∧
    (contains403 e = false → signinPhrase e = true → hintFor e = some Hint.auth) ∧
    (contains403 e = false → signinPhrase e = false → hintFor e = none) ∧
    (mainRun (.ok i)).1 = 0 := by
  refine ⟨rfl, fun h => ?_, fun h1 h2 => ?_, fun h1 h2 => ?_, rfl⟩
  · rw [hintFor, if_pos h]
  · rw [hintFor, h1]
    simp [h2]
  · rw [hintFor, h1, h2]
    rfl

/-- Witness for C8 at concrete error strings and a fetch result with zero
formats. -/
theorem c8_error_handling_witness :
    mainRun (.error ("HTTP Error 403: Forbidden")) = (1, none) ∧
    hintFor ("HTTP Error 403: Forbidden") = some Hint.http403 ∧
    hintFor ("Sign in to confirm you are not a bot") = some Hint.auth ∧
    (mainRun (.ok ⟨("t"), ("u"), 0, ("w"), []⟩)).1 = 0 := by
  have h1 := c8_error_handling ("HTTP Error 403: Forbidden") ⟨("t"), ("u"), 0, ("w"), []⟩
  have h2 := c8_error_handling ("Sign in to confirm you are not a bot")
    ⟨("t"), ("u"), 0, ("w"), []⟩
  exact ⟨h1.1, h1.2.1 (by decide), h2.2.2.1 (by decide) (by decide), h1.2.2.2.2⟩

end YT
